import Mathlib

/-!
The stream-buffer adapter `JavaNioConnStreamBuffer`.

A shallow embedding of `JavaNioConnStreamBuffer.cc`: the constructor, `overflow`,
`underflow` and the destructor of the stream-buffer adapter, as pure functions on an
explicit adapter state.  Every JNI function the code calls is recorded, in call order,
in the list of `JniCall`s an operation yields; what the JVM answers during one call
(null or not, exception or not, the array `pull` returns) is an explicit argument.
-/

namespace JavaNioConnStreamBuffer

/-- One `char` of memory, as its raw byte value. -/
abbrev Byte := Fin 256

/-- The value `traits_type::eof()`. -/
def EOF : Int := -1

/-- The conversion `traits_type::to_int_type`: the byte read as an `unsigned char`. -/
def to_int_type (c : Byte) : Int := (c.val : Int)

/-- The narrowing done by the assignment `buff[i] = in` of an `int_type` to a `char`:
the value modulo 256. -/
def to_char (i : Int) : Byte := ⟨(i % 256).toNat, by omega⟩

/-- What a `char*` points to: the array made by `new char[buffsize]` in the
constructor, the elements `GetByteArrayElements` handed out for the Java array with
reference `ref`, or nothing (the null pointer `GetByteArrayElements` returns when it
fails). -/
inductive Region where
  | heap
  | elements (ref : Nat)
  | null
  deriving DecidableEq, Repr

/-- A Java `byte[]` reached through a `jbyteArray`: its identity and its contents. -/
structure JArray where
  ref : Nat
  bytes : List Byte
  deriving DecidableEq, Repr

/-- The pointer `buff`: the allocation it points to and the bytes that can be accessed
through it.  After `ReleaseByteArrayElements` was called on it no byte can be accessed,
and none can be through a null pointer. -/
structure Buffer where
  region : Region
  data : List Byte
  deriving DecidableEq, Repr

/-- The two Java methods the adapter looks up. -/
inductive Method where
  | push
  | pull
  deriving DecidableEq, Repr

/-- The JNI functions the file calls, with the arguments that matter.  `CallVoidMethod`
carries the bytes the direct byte buffer gives access to at the time of the call. -/
inductive JniCall where
  | NewDirectByteBuffer (region : Region) (capacity : Nat)
  | GetObjectClass
  | GetMethodID (m : Method)
  | CallVoidMethod (bytes : List Byte)
  | CallObjectMethod
  | ExceptionOccurred
  | ExceptionDescribe
  | GetArrayLength (arr : JArray)
  | GetByteArrayElements (arr : JArray)
  | ReleaseByteArrayElements (arr : JArray) (buf : Region)
  | DeleteGlobalRef
  deriving DecidableEq, Repr

/-- What the JVM answers while `overflow` flushes: whether `NewDirectByteBuffer` and
`GetMethodID` return non-null, and whether an exception is pending after `push`. -/
structure PushEnv where
  directBuffer : Bool
  methodId : Bool
  raises : Bool
  deriving DecidableEq, Repr

/-- What the JVM answers while `underflow` refills: whether `GetMethodID` returns
non-null, whether an exception is pending after `pull`, the reference `pull` returned
(`none` for null), and whether `GetByteArrayElements` returns non-null. -/
structure PullEnv where
  methodId : Bool
  raises : Bool
  result : Option JArray
  elements : Bool
  deriving DecidableEq, Repr

/-- The fields of the adapter (`jni_env` and `handle` are set once by the constructor and
never change; they are left out).  The get area of the `std::streambuf` base is kept as the
three offsets of `eback()`, `gptr()` and `egptr()` from `buff`: both `setg` calls of the
file pass pointers computed from the current `buff`.  `next_w_element` and `size` are
natural numbers (the header declaring them is not part of the sources); the index never
exceeds the length of an allocation before an access through it is undefined. -/
structure State where
  size : Nat
  put_back_ : Nat
  buff : Buffer
  next_w_element : Nat
  j_value : Option JArray
  eback : Nat
  gptr : Nat
  egptr : Nat
  deriving DecidableEq, Repr

/-- How a call of `overflow` or `underflow` ends: it returns a value, or it reaches
`exit(0)` (the state is the one at that point), or it accesses memory outside what
`buff` points to (the calls are those made before that access). -/
inductive Outcome where
  | returned (value : Int) (s : State) (calls : List JniCall)
  | exited (s : State) (calls : List JniCall)
  | undefined (calls : List JniCall)
  deriving DecidableEq, Repr

/-- The JNI calls made during the operation. -/
def Outcome.calls : Outcome → List JniCall
  | .returned _ _ cs => cs
  | .exited _ cs => cs
  | .undefined cs => cs

/-- The value the operation returns, when it returns. -/
def Outcome.value : Outcome → Option Int
  | .returned v _ _ => some v
  | .exited _ _ => none
  | .undefined _ => none

/-- The constructor.  `buffsize` is the `unsigned int` argument, `mem` gives the
indeterminate contents of the fresh `char` array.  The get area starts empty, at the end
of the array. -/
def ctor (buffsize : Nat) (mem : Nat → Byte) : State :=
  { size := buffsize
    put_back_ := 1
    buff := { region := Region.heap, data := (List.range buffsize).map mem }
    next_w_element := 0
    j_value := none
    eback := buffsize
    gptr := buffsize
    egptr := buffsize }

/-- The method `overflow(in)`. -/
def overflow (jvm : PushEnv) (s : State) (c : Int) : Outcome :=
  if s.next_w_element < s.buff.data.length then
    let s1 : State :=
      { s with
        buff := { s.buff with data := s.buff.data.set s.next_w_element (to_char c) }
        next_w_element := s.next_w_element + 1 }
    if c = EOF ∨ s1.next_w_element = s1.size then
      let lookup : List JniCall :=
        [JniCall.NewDirectByteBuffer s1.buff.region s1.next_w_element,
         JniCall.GetObjectClass, JniCall.GetMethodID Method.push]
      if jvm.directBuffer = true ∧ jvm.methodId = true then
        let called : List JniCall :=
          lookup ++ [JniCall.CallVoidMethod (s1.buff.data.take s1.next_w_element),
                     JniCall.ExceptionOccurred]
        if jvm.raises = true then
          Outcome.exited s1 (called ++ [JniCall.ExceptionDescribe])
        else
          Outcome.returned c
            { s1 with
              buff := { s1.buff with data := s1.buff.data.set 0 (to_char c) }
              next_w_element := 0 }
            called
      else
        Outcome.exited s1 lookup
    else
      Outcome.returned c s1 []
  else
    Outcome.undefined []

/-- The method `underflow()`.  `ReleaseByteArrayElements(j_value, buff, 0)` ends the
access to the bytes behind `buff`.  The result of `GetByteArrayElements` is assigned to
`buff` unchecked: when it is null, the read of `buff[0]` is an access through a null
pointer. -/
def underflow (jvm : PullEnv) (s : State) : Outcome :=
  if s.gptr < s.egptr then
    match s.buff.data[s.gptr]? with
    | some ch => Outcome.returned (to_int_type ch) s []
    | none => Outcome.undefined []
  else
    let released : List JniCall :=
      match s.j_value with
      | some a => [JniCall.ReleaseByteArrayElements a s.buff.region]
      | none => []
    let s0 : State :=
      match s.j_value with
      | some _ => { s with buff := { s.buff with data := [] } }
      | none => s
    let lookup : List JniCall :=
      released ++ [JniCall.GetObjectClass, JniCall.GetMethodID Method.pull]
    if jvm.methodId = true then
      let s1 : State := { s0 with j_value := jvm.result }
      let called : List JniCall :=
        lookup ++ [JniCall.CallObjectMethod, JniCall.ExceptionOccurred]
      if jvm.raises = true then
        Outcome.exited s1 (called ++ [JniCall.ExceptionDescribe])
      else
        match jvm.result with
        | some a =>
          let s2 : State := { s1 with size := a.bytes.length }
          if s2.size = 0 then
            Outcome.returned EOF s2 (called ++ [JniCall.GetArrayLength a])
          else
            let s3 : State :=
              { s2 with
                buff :=
                  if jvm.elements = true then
                    { region := Region.elements a.ref, data := a.bytes }
                  else
                    { region := Region.null, data := [] }
                eback := 0
                gptr := 0
                egptr := s2.size }
            match s3.buff.data[0]? with
            | some b =>
              Outcome.returned (to_int_type b) s3
                (called ++ [JniCall.GetArrayLength a, JniCall.GetByteArrayElements a])
            | none =>
              Outcome.undefined
                (called ++ [JniCall.GetArrayLength a, JniCall.GetByteArrayElements a])
        | none => Outcome.returned EOF s1 called
    else
      Outcome.exited s0 lookup

/-- How the destructor ends: it completes, or the `overflow` it calls reaches `exit(0)`,
or that `overflow` accesses memory outside the allocation (its store, before any JNI
call). -/
inductive Destroyed where
  | done (calls : List JniCall)
  | exited (calls : List JniCall)
  | undefined
  deriving DecidableEq, Repr

/-- The JNI calls made during destruction. -/
def Destroyed.calls : Destroyed → List JniCall
  | .done cs => cs
  | .exited cs => cs
  | .undefined => []

/-- The destructor. -/
def dtor (jvm : PushEnv) (s : State) : Destroyed :=
  match s.j_value with
  | some a =>
    Destroyed.done [JniCall.ReleaseByteArrayElements a s.buff.region, JniCall.DeleteGlobalRef]
  | none =>
    match overflow jvm s EOF with
    | Outcome.returned _ _ cs => Destroyed.done (cs ++ [JniCall.DeleteGlobalRef])
    | Outcome.exited _ cs => Destroyed.exited cs
    | Outcome.undefined _ => Destroyed.undefined

/-- The member `gbump(n)` of the base class: the get pointer advances by `n`. -/
def gbump (n : Nat) (s : State) : State := { s with gptr := s.gptr + n }

/-- The byte buffers handed to `push`, in call order. -/
def pushed : List JniCall → List (List Byte)
  | [] => []
  | JniCall.CallVoidMethod bs :: cs => bs :: pushed cs
  | _ :: cs => pushed cs

/-- The number of `pull` invocations among the calls. -/
def pulls (cs : List JniCall) : Nat := cs.count JniCall.CallObjectMethod

/-- The JVM answering every lookup and raising nothing during a flush. -/
def PushEnv.ok : PushEnv := { directBuffer := true, methodId := true, raises := false }

/-- The JVM resolving `pull`, raising nothing, returning `r` and handing out the elements
of the array when asked. -/
def PullEnv.ok (r : Option JArray) : PullEnv :=
  { methodId := true, raises := false, result := r, elements := true }

/-- The characters written one by one through `overflow`, each call starting in the
state the previous one returned; the result is the final state and the JNI calls made,
or `none` when a call does not return. -/
def writeChars (jvm : PushEnv) : State → List Byte → Option (State × List JniCall)
  | s, [] => some (s, [])
  | s, c :: cs =>
    match overflow jvm s (to_int_type c) with
    | Outcome.returned _ s' calls =>
      match writeChars jvm s' cs with
      | some (t, more) => some (t, calls ++ more)
      | none => none
    | _ => none

/-- A write session: construction with capacity `buffsize`, the characters written one by
one, destruction.  The result is the JNI calls made, or `none` when a step does not
complete. -/
def writeSession (jvm : PushEnv) (buffsize : Nat) (mem : Nat → Byte) (cs : List Byte) :
    Option (List JniCall) :=
  match writeChars jvm (ctor buffsize mem) cs with
  | some (s, calls) =>
    match dtor jvm s with
    | Destroyed.done more => some (calls ++ more)
    | _ => none
  | none => none

/-- Reading character by character: `underflow`, then `gbump(1)`, until `underflow`
returns EOF.  `jvm i` is what the JVM answers once `i` invocations of `pull` were made.
The result is the values read before EOF, the final state and the JNI calls made, or
`none` when a call does not return or the fuel runs out. -/
def readAll (jvm : Nat → PullEnv) : Nat → Nat → State → Option (List Int × State × List JniCall)
  | 0, _, _ => none
  | fuel + 1, i, s =>
    match underflow (jvm i) s with
    | Outcome.returned v s' calls =>
      if v = EOF then some ([], s', calls)
      else
        match readAll jvm fuel (i + pulls calls) (gbump 1 s') with
        | some (vs, t, more) => some (v :: vs, t, calls ++ more)
        | none => none
    | _ => none

/-- A call made by the owner of the adapter, with what the JVM answers during it. -/
inductive Op where
  | overflow (jvm : PushEnv) (c : Int)
  | underflow (jvm : PullEnv)
  deriving DecidableEq, Repr

/-- One call on the adapter. -/
def step (s : State) : Op → Outcome
  | Op.overflow jvm c => overflow jvm s c
  | Op.underflow jvm => underflow jvm s

/-- The calls of a sequence that are started, each with the state it starts in: the
sequence ends at the first call that does not return. -/
def run : State → List Op → List (State × Op)
  | _, [] => []
  | s, op :: ops =>
    (s, op) ::
      match step s op with
      | Outcome.returned _ s' _ => run s' ops
      | _ => []

/-- The state of a write-only adapter: no array is held, the buffer has `size` bytes and
the write index is inside it. -/
def WriteOnly (s : State) : Prop :=
  s.j_value = none ∧ s.buff.data.length = s.size ∧ s.next_w_element < s.size

/-! ## Conversions -/

theorem to_char_to_int_type (c : Byte) : to_char (to_int_type c) = c := by
  apply Fin.ext
  have h := c.isLt
  simp only [to_char, to_int_type]
  omega

theorem to_int_type_ne_EOF (c : Byte) : to_int_type c ≠ EOF := by
  simp only [to_int_type, EOF]
  omega

theorem to_int_type_range (c : Byte) : 0 ≤ to_int_type c ∧ to_int_type c ≤ 255 := by
  have h := c.isLt
  simp only [to_int_type]
  omega

theorem take_succ_set (l : List Byte) (k : Nat) (c : Byte) (hk : k < l.length) :
    (l.set k c).take (k + 1) = l.take k ++ [c] := by
  induction l generalizing k with
  | nil => simp at hk
  | cons x xs ih =>
    cases k with
    | zero => simp
    | succ j =>
      have hj : j < xs.length := by simpa using hk
      simp [List.set, List.take, ih j hj]

/-! ## One call of `overflow` -/

theorem overflow_store (jvm : PushEnv) (s : State) (c : Int)
    (hk : s.next_w_element < s.buff.data.length)
    (hc : c ≠ EOF) (hn : s.next_w_element + 1 ≠ s.size) :
    overflow jvm s c = Outcome.returned c
      { s with
        buff := { s.buff with data := s.buff.data.set s.next_w_element (to_char c) }
        next_w_element := s.next_w_element + 1 } [] := by
  simp [overflow, hk, hc, hn]

theorem overflow_flush (s : State) (c : Int)
    (hk : s.next_w_element < s.buff.data.length)
    (hf : c = EOF ∨ s.next_w_element + 1 = s.size) :
    overflow PushEnv.ok s c = Outcome.returned c
      { s with
        buff := { s.buff with
                  data := (s.buff.data.set s.next_w_element (to_char c)).set 0 (to_char c) }
        next_w_element := 0 }
      [JniCall.NewDirectByteBuffer s.buff.region (s.next_w_element + 1),
       JniCall.GetObjectClass, JniCall.GetMethodID Method.push,
       JniCall.CallVoidMethod
         ((s.buff.data.set s.next_w_element (to_char c)).take (s.next_w_element + 1)),
       JniCall.ExceptionOccurred] := by
  simp [overflow, hk, hf, PushEnv.ok]

/-- C4, as amended: on a state with capacity `size` and write index `k < size` (so that
`size ≥ 1`), and
when `NewDirectByteBuffer` and the lookup of `push` return non-null and `push` raises
nothing, `overflow(c)` for a character `c` invokes `push` if and only if `k + 1 = size`;
then `push` is invoked exactly once, with the first `size` bytes of the buffer (the `k`
bytes stored before followed by `c`), and the write index becomes 0; otherwise no JNI
function is called, `c` is stored at position `k` and the write index becomes `k + 1`. -/
theorem overflow_pushes_iff_full (jvm : PushEnv) (s : State) (c : Byte)
    (hcap : s.buff.data.length = s.size) (hk : s.next_w_element < s.size)
    (hbuf : jvm.directBuffer = true) (hid : jvm.methodId = true)
    (hexc : jvm.raises = false) :
    ((∃ bs, JniCall.CallVoidMethod bs ∈ (overflow jvm s (to_int_type c)).calls) ↔
        s.next_w_element + 1 = s.size) ∧
    (s.next_w_element + 1 = s.size →
      ∃ s' cs, overflow jvm s (to_int_type c) = Outcome.returned (to_int_type c) s' cs ∧
        pushed cs = [(s.buff.data.set s.next_w_element c).take s.size] ∧
        (s.buff.data.set s.next_w_element c).take s.size
          = s.buff.data.take s.next_w_element ++ [c] ∧
        s'.next_w_element = 0) ∧
    (s.next_w_element + 1 ≠ s.size →
      ∃ s', overflow jvm s (to_int_type c) = Outcome.returned (to_int_type c) s' [] ∧
        s'.buff.data[s.next_w_element]? = some c ∧
        s'.buff.data = s.buff.data.set s.next_w_element c ∧
        s'.next_w_element = s.next_w_element + 1) := by
  have hk2 : s.next_w_element < s.buff.data.length := by omega
  have hjvm : jvm = PushEnv.ok := by
    cases jvm
    simp_all [PushEnv.ok]
  subst hjvm
  by_cases hfull : s.next_w_element + 1 = s.size
  · have hrun := overflow_flush s (to_int_type c) hk2 (Or.inr hfull)
    rw [to_char_to_int_type] at hrun
    refine ⟨?_, ?_, ?_⟩
    · rw [hrun]
      simp [Outcome.calls, hfull]
    · intro _
      refine ⟨_, _, hrun, ?_, ?_, rfl⟩
      · simp [pushed, hfull]
      · rw [← hfull]
        exact take_succ_set _ _ _ hk2
    · intro h
      exact absurd hfull h
  · have hrun := overflow_store PushEnv.ok s (to_int_type c) hk2 (to_int_type_ne_EOF c) hfull
    rw [to_char_to_int_type] at hrun
    refine ⟨?_, ?_, ?_⟩
    · rw [hrun]
      simp [Outcome.calls, hfull]
    · intro h
      exact absurd h hfull
    · intro _
      refine ⟨_, hrun, ?_, rfl, rfl⟩
      simp [hk2]

theorem overflow_pushes_iff_full_witness :
    (∃ bs, JniCall.CallVoidMethod bs ∈
        (overflow PushEnv.ok (ctor 1 (fun _ => 0)) (to_int_type 97)).calls) ↔
      (ctor 1 (fun _ => 0)).next_w_element + 1 = (ctor 1 (fun _ => 0)).size :=
  (overflow_pushes_iff_full PushEnv.ok (ctor 1 (fun _ => 0)) 97
    (by decide) (by decide) rfl rfl rfl).1

/-- C4 fails as stated: on a full buffer (`k + 1 = size`) `push` is not invoked when the
lookup of `push` or `NewDirectByteBuffer` returns null, and when `push` raises the write
index is not reset. -/
theorem overflow_pushes_iff_full_counterexample :
    (ctor 1 (fun _ => 0)).next_w_element + 1 = (ctor 1 (fun _ => 0)).size ∧
    pushed (overflow { directBuffer := true, methodId := false, raises := false }
      (ctor 1 (fun _ => 0)) (to_int_type 97)).calls = [] ∧
    pushed (overflow { directBuffer := false, methodId := true, raises := false }
      (ctor 1 (fun _ => 0)) (to_int_type 97)).calls = [] ∧
    overflow { directBuffer := true, methodId := true, raises := true }
      (ctor 1 (fun _ => 0)) (to_int_type 97) =
      Outcome.exited
        { size := 1, put_back_ := 1, buff := ⟨Region.heap, [97]⟩, next_w_element := 1,
          j_value := none, eback := 1, gptr := 1, egptr := 1 }
        [JniCall.NewDirectByteBuffer Region.heap 1, JniCall.GetObjectClass,
         JniCall.GetMethodID Method.push, JniCall.CallVoidMethod [97],
         JniCall.ExceptionOccurred, JniCall.ExceptionDescribe] := by
  decide

/-! ## One call of `underflow` -/

theorem underflow_pending (jvm : PullEnv) (s : State) (ch : Byte)
    (hg : s.gptr < s.egptr) (hch : s.buff.data[s.gptr]? = some ch) :
    underflow jvm s = Outcome.returned (to_int_type ch) s [] := by
  simp [underflow, hg, hch]

theorem underflow_refill_calls (jvm : PullEnv) (s : State)
    (hg : ¬ s.gptr < s.egptr) (hid : jvm.methodId = true) :
    JniCall.CallObjectMethod ∈ (underflow jvm s).calls := by
  obtain ⟨mid, rs, res, el⟩ := jvm
  simp only at hid
  subst hid
  cases hj : s.j_value <;> cases rs <;> cases res with
  | none => simp [underflow, hg, hj, Outcome.calls]
  | some a =>
    obtain ⟨ref, bytes⟩ := a
    cases bytes <;> cases el <;> simp [underflow, hg, hj, Outcome.calls]

theorem underflow_pull_resolved (jvm : PullEnv) (s : State)
    (h : JniCall.CallObjectMethod ∈ (underflow jvm s).calls) :
    ¬ s.gptr < s.egptr ∧ jvm.methodId = true := by
  by_cases hg : s.gptr < s.egptr
  · cases hd : s.buff.data[s.gptr]? <;> simp [underflow, hg, hd, Outcome.calls] at h
  · refine ⟨hg, ?_⟩
    obtain ⟨mid, rs, res, el⟩ := jvm
    cases mid
    · cases hj : s.j_value <;> simp [underflow, hg, hj, Outcome.calls] at h
    · rfl

/-- C5, as amended: when the lookup of `pull` returns non-null, `underflow` invokes `pull`
if and only if the get area is exhausted (the test `gptr < egptr` of the code fails,
which for a get area with `gptr ≤ egptr` is `gptr = egptr`); when the get area is not
exhausted, `underflow` returns the character at `gptr`, calls no JNI function and leaves
the whole adapter state unchanged.  The first `underflow` on a freshly constructed
adapter invokes `pull`. -/
theorem underflow_pulls_iff_exhausted (jvm : PullEnv) (s : State)
    (hid : jvm.methodId = true) :
    (JniCall.CallObjectMethod ∈ (underflow jvm s).calls ↔ ¬ s.gptr < s.egptr) ∧
    (s.gptr ≤ s.egptr →
      (JniCall.CallObjectMethod ∈ (underflow jvm s).calls ↔ s.gptr = s.egptr)) ∧
    (s.gptr < s.egptr → ∀ ch, s.buff.data[s.gptr]? = some ch →
      underflow jvm s = Outcome.returned (to_int_type ch) s []) ∧
    (∀ n mem, JniCall.CallObjectMethod ∈ (underflow jvm (ctor n mem)).calls) := by
  have hiff : JniCall.CallObjectMethod ∈ (underflow jvm s).calls ↔ ¬ s.gptr < s.egptr :=
    ⟨fun h => (underflow_pull_resolved jvm s h).1,
     fun hg => underflow_refill_calls jvm s hg hid⟩
  refine ⟨hiff, ?_, ?_, ?_⟩
  · intro hwf
    rw [hiff]
    omega
  · intro hg ch hch
    exact underflow_pending jvm s ch hg hch
  · intro n mem
    exact underflow_refill_calls jvm (ctor n mem) (by simp [ctor]) hid

theorem underflow_pulls_iff_exhausted_witness :
    underflow (PullEnv.ok none)
      { size := 2, put_back_ := 1, buff := ⟨Region.elements 1, [65, 66]⟩, next_w_element := 0,
        j_value := some ⟨1, [65, 66]⟩, eback := 0, gptr := 1, egptr := 2 } =
    Outcome.returned 66
      { size := 2, put_back_ := 1, buff := ⟨Region.elements 1, [65, 66]⟩, next_w_element := 0,
        j_value := some ⟨1, [65, 66]⟩, eback := 0, gptr := 1, egptr := 2 } [] :=
  (underflow_pulls_iff_exhausted (PullEnv.ok none)
    { size := 2, put_back_ := 1, buff := ⟨Region.elements 1, [65, 66]⟩, next_w_element := 0,
      j_value := some ⟨1, [65, 66]⟩, eback := 0, gptr := 1, egptr := 2 }
    rfl).2.2.1 (by decide) 66 (by decide)

/-- C5 fails as stated: on a freshly constructed adapter the get area is exhausted, and
`underflow` does not invoke `pull` when the lookup of `pull` returns null. -/
theorem underflow_pulls_iff_exhausted_counterexample :
    (ctor 1 (fun _ => 0)).gptr = (ctor 1 (fun _ => 0)).egptr ∧
    JniCall.CallObjectMethod ∉
      (underflow { methodId := false, raises := false, result := none, elements := true }
        (ctor 1 (fun _ => 0))).calls ∧
    underflow { methodId := false, raises := false, result := none, elements := true }
        (ctor 1 (fun _ => 0)) =
      Outcome.exited (ctor 1 (fun _ => 0))
        [JniCall.GetObjectClass, JniCall.GetMethodID Method.pull] := by
  decide

/-- C6, as amended: when the get area is exhausted and `pull`, invoked by `underflow`,
raises nothing, `underflow` returns EOF if and only if `pull` returned null or an array
of length 0; for a returned array `a` of length `L ≥ 1` whose elements
`GetByteArrayElements` hands out (a non-null result), the buffer becomes the elements of
`a`, the get area covers exactly them (`eback` and `gptr` at index 0, `egptr` at index
`L`), and the value returned is `a[0]` as an unsigned value in `0..255`, which is not
EOF; a byte `0xFF` is returned as 255. -/
theorem underflow_refill_result (jvm : PullEnv) (s : State)
    (hg : s.egptr ≤ s.gptr)
    (hpull : JniCall.CallObjectMethod ∈ (underflow jvm s).calls)
    (hexc : jvm.raises = false) :
    ((underflow jvm s).value = some EOF ↔
        (jvm.result = none ∨ ∃ a, jvm.result = some a ∧ a.bytes.length = 0)) ∧
    (∀ a, jvm.result = some a → 1 ≤ a.bytes.length → jvm.elements = true →
      ∃ b s' cs, a.bytes[0]? = some b ∧
        underflow jvm s = Outcome.returned (to_int_type b) s' cs ∧
        s'.buff = { region := Region.elements a.ref, data := a.bytes } ∧
        s'.j_value = some a ∧
        s'.eback = 0 ∧ s'.gptr = 0 ∧ s'.egptr = a.bytes.length ∧
        0 ≤ to_int_type b ∧ to_int_type b ≤ 255 ∧ to_int_type b ≠ EOF ∧
        (b = 255 → to_int_type b = 255)) := by
  have hng : ¬ s.gptr < s.egptr := by omega
  have hid := (underflow_pull_resolved jvm s hpull).2
  clear hpull
  obtain ⟨mid, rs, res, el⟩ := jvm
  simp only at hid hexc
  subst hid
  subst hexc
  refine ⟨?_, ?_⟩
  · cases res with
    | none => cases hj : s.j_value <;> simp [underflow, hng, hj, Outcome.value]
    | some a =>
      obtain ⟨ref, bytes⟩ := a
      cases bytes with
      | nil => cases hj : s.j_value <;> simp [underflow, hng, hj, Outcome.value]
      | cons b bs =>
        cases hj : s.j_value <;> cases el <;>
          simp [underflow, hng, hj, Outcome.value, to_int_type_ne_EOF]
  · intro a ha hlen hel
    simp only at ha hel
    subst ha
    subst hel
    obtain ⟨ref, bytes⟩ := a
    cases bytes with
    | nil => simp at hlen
    | cons b bs =>
      refine ⟨b, ?_⟩
      have hr := to_int_type_range b
      have hne := to_int_type_ne_EOF b
      cases hj : s.j_value <;>
        simp [underflow, hng, hj, hr.1, hr.2, hne] <;>
        intro hb <;> subst hb <;> rfl

theorem underflow_refill_result_witness :
    (underflow (PullEnv.ok (some ⟨3, [255, 7]⟩)) (ctor 4 (fun _ => 0))).value = some 255 ∧
    ((underflow (PullEnv.ok (some ⟨3, []⟩)) (ctor 4 (fun _ => 0))).value = some EOF ↔
      ((PullEnv.ok (some ⟨3, []⟩)).result = none ∨
        ∃ a, (PullEnv.ok (some ⟨3, []⟩)).result = some a ∧ a.bytes.length = 0)) :=
  ⟨by
    obtain ⟨b, s', cs, hb, hrun, _⟩ :=
      (underflow_refill_result (PullEnv.ok (some ⟨3, [255, 7]⟩)) (ctor 4 (fun _ => 0))
        (by decide) (by decide) rfl).2 ⟨3, [255, 7]⟩ rfl (by decide) rfl
    simp only [List.getElem?_cons_zero, Option.some.injEq] at hb
    subst hb
    rw [hrun]
    rfl,
   (underflow_refill_result (PullEnv.ok (some ⟨3, []⟩)) (ctor 4 (fun _ => 0))
      (by decide) (by decide) rfl).1⟩

/-- C6 fails as stated: on a fresh adapter, when `pull` returns the array `[0xFF, 7]`
without raising and `GetByteArrayElements` returns null, `underflow` assigns null to
`buff` and reads `buff[0]` through it: `pull` was invoked and returned an array of
length 2, yet no value is returned and the get area does not become the array. -/
theorem underflow_refill_result_counterexample :
    (ctor 4 (fun _ => 0)).egptr ≤ (ctor 4 (fun _ => 0)).gptr ∧
    underflow { methodId := true, raises := false, result := some ⟨3, [255, 7]⟩,
                elements := false } (ctor 4 (fun _ => 0)) =
      Outcome.undefined
        [JniCall.GetObjectClass, JniCall.GetMethodID Method.pull, JniCall.CallObjectMethod,
         JniCall.ExceptionOccurred, JniCall.GetArrayLength ⟨3, [255, 7]⟩,
         JniCall.GetByteArrayElements ⟨3, [255, 7]⟩] ∧
    (underflow { methodId := true, raises := false, result := some ⟨3, [255, 7]⟩,
                 elements := false } (ctor 4 (fun _ => 0))).value = none := by
  decide

/-! ## Failures of the foreign side -/

/-- C3: when the `push` call made by `overflow` raises an exception, `overflow` returns
no value: it reaches `exit(0)` with the write index incremented and not reset; when the
`pull` call made by `underflow` raises an exception, `underflow` returns no value: it
reaches `exit(0)` with the get area as it was. -/
theorem exception_exits (jo : PushEnv) (ju : PullEnv) (s : State) (c : Int) :
    (jo.raises = true → (∃ bs, JniCall.CallVoidMethod bs ∈ (overflow jo s c).calls) →
      (overflow jo s c).value = none ∧
      ∃ s' cs, overflow jo s c = Outcome.exited s' cs ∧
        s'.next_w_element = s.next_w_element + 1 ∧ s'.next_w_element ≠ 0) ∧
    (ju.raises = true → JniCall.CallObjectMethod ∈ (underflow ju s).calls →
      (underflow ju s).value = none ∧
      ∃ s' cs, underflow ju s = Outcome.exited s' cs ∧
        s'.eback = s.eback ∧ s'.gptr = s.gptr ∧ s'.egptr = s.egptr) := by
  refine ⟨?_, ?_⟩
  · intro hr hcall
    obtain ⟨bs, hbs⟩ := hcall
    obtain ⟨db, mid, rs⟩ := jo
    simp only at hr
    subst hr
    by_cases hk : s.next_w_element < s.buff.data.length
    · by_cases hf : c = EOF ∨ s.next_w_element + 1 = s.size
      · cases db <;> cases mid <;>
          simp [overflow, hk, hf, Outcome.calls, Outcome.value] at hbs ⊢
      · simp [overflow, hk, hf, Outcome.calls] at hbs
    · simp [overflow, hk, Outcome.calls] at hbs
  · intro hr hcall
    obtain ⟨mid, rs, res, el⟩ := ju
    simp only at hr
    subst hr
    by_cases hg : s.gptr < s.egptr
    · cases hd : s.buff.data[s.gptr]? <;>
        simp [underflow, hg, hd, Outcome.calls] at hcall
    · cases mid <;> cases hj : s.j_value <;>
        simp [underflow, hg, hj, Outcome.calls, Outcome.value] at hcall ⊢

theorem exception_exits_witness :
    (overflow { directBuffer := true, methodId := true, raises := true }
        (ctor 1 (fun _ => 0)) 97).value = none ∧
    (underflow { methodId := true, raises := true, result := none, elements := true }
        (ctor 1 (fun _ => 0))).value = none :=
  ⟨((exception_exits { directBuffer := true, methodId := true, raises := true }
      { methodId := true, raises := true, result := none, elements := true } (ctor 1 (fun _ => 0)) 97).1
      rfl ⟨[97], by decide⟩).1,
   ((exception_exits { directBuffer := true, methodId := true, raises := true }
      { methodId := true, raises := true, result := none, elements := true } (ctor 1 (fun _ => 0)) 97).2
      rfl (by decide)).1⟩

theorem to_char_EOF : to_char EOF = 255 := by decide

/-- C10, as amended: if `j_value` is null the destructor calls `overflow` with EOF which,
when the write index `k` is inside the buffer, `NewDirectByteBuffer` and the lookup of
`push` return non-null and `push` raises nothing, invokes `push` exactly once, with the
`k` pending bytes followed by the byte of EOF (a buffer of length `k + 1`), and no array
is released; if `j_value` is non-null the destructor releases the held array exactly
once and invokes no `push`, so the pending bytes are not delivered. -/
theorem dtor_flushes_iff_no_array (jvm : PushEnv) (s : State) :
    (s.j_value = none → s.next_w_element < s.buff.data.length →
      jvm.directBuffer = true → jvm.methodId = true → jvm.raises = false →
      ∃ cs, dtor jvm s = Destroyed.done cs ∧
        pushed cs = [s.buff.data.take s.next_w_element ++ [255]] ∧
        (s.buff.data.take s.next_w_element ++ [255]).length = s.next_w_element + 1 ∧
        ∀ a r, JniCall.ReleaseByteArrayElements a r ∉ cs) ∧
    (∀ a, s.j_value = some a →
      dtor jvm s = Destroyed.done
        [JniCall.ReleaseByteArrayElements a s.buff.region, JniCall.DeleteGlobalRef] ∧
      pushed (dtor jvm s).calls = []) := by
  refine ⟨?_, ?_⟩
  · intro hj hk hbuf hid hexc
    have hjvm : jvm = PushEnv.ok := by
      cases jvm
      simp_all [PushEnv.ok]
    subst hjvm
    have hrun := overflow_flush s EOF hk (Or.inl rfl)
    have hd : dtor PushEnv.ok s = Destroyed.done
        ([JniCall.NewDirectByteBuffer s.buff.region (s.next_w_element + 1),
          JniCall.GetObjectClass, JniCall.GetMethodID Method.push,
          JniCall.CallVoidMethod
            ((s.buff.data.set s.next_w_element (to_char EOF)).take (s.next_w_element + 1)),
          JniCall.ExceptionOccurred] ++ [JniCall.DeleteGlobalRef]) := by
      simp only [dtor, hj]
      rw [hrun]
    refine ⟨_, hd, ?_, ?_, ?_⟩
    · simp [pushed, take_succ_set _ _ _ hk, to_char_EOF]
    · simp [List.length_take]
      omega
    · intro a r
      simp
  · intro a hj
    simp [dtor, hj, Destroyed.calls, pushed]

theorem dtor_flushes_iff_no_array_witness :
    dtor PushEnv.ok
      { size := 2, put_back_ := 1, buff := ⟨Region.elements 1, [65, 66]⟩, next_w_element := 0,
        j_value := some ⟨1, [65, 66]⟩, eback := 0, gptr := 1, egptr := 2 } =
      Destroyed.done
        [JniCall.ReleaseByteArrayElements ⟨1, [65, 66]⟩ (Region.elements 1),
         JniCall.DeleteGlobalRef] ∧
    ∃ cs, dtor PushEnv.ok (ctor 2 (fun _ => 0)) = Destroyed.done cs ∧
      pushed cs = [[255]] :=
  ⟨((dtor_flushes_iff_no_array PushEnv.ok
      { size := 2, put_back_ := 1, buff := ⟨Region.elements 1, [65, 66]⟩, next_w_element := 0,
        j_value := some ⟨1, [65, 66]⟩, eback := 0, gptr := 1, egptr := 2 }).2
      ⟨1, [65, 66]⟩ rfl).1,
   by
    obtain ⟨cs, h1, h2, _⟩ :=
      (dtor_flushes_iff_no_array PushEnv.ok (ctor 2 (fun _ => 0))).1
        rfl (by decide) rfl rfl rfl
    exact ⟨cs, h1, h2⟩⟩

/-- C10 fails as stated: with `j_value` null and the lookup of `push` returning null, the
destructor reaches `exit(0)` in `overflow` and `push` is not invoked; and in the state
reached by `overflow('a')`, an `underflow` pulling a one-byte array, `gbump(1)` and an
`underflow` pulling null, `j_value` is null and the write index is outside the buffer,
so the store of the destructor's `overflow` is undefined. -/
theorem dtor_flushes_iff_no_array_counterexample :
    (ctor 2 (fun _ => 0)).j_value = none ∧
    dtor { directBuffer := true, methodId := false, raises := false } (ctor 2 (fun _ => 0)) =
      Destroyed.exited
        [JniCall.NewDirectByteBuffer Region.heap 1, JniCall.GetObjectClass,
         JniCall.GetMethodID Method.push] ∧
    pushed (dtor { directBuffer := true, methodId := false, raises := false }
      (ctor 2 (fun _ => 0))).calls = [] ∧
    ∃ s1 s2 s3 c1 c2 c3,
      overflow PushEnv.ok (ctor 2 (fun _ => 0)) 97 = Outcome.returned 97 s1 c1 ∧
      underflow (PullEnv.ok (some ⟨1, [5]⟩)) s1 = Outcome.returned 5 s2 c2 ∧
      underflow (PullEnv.ok none) (gbump 1 s2) = Outcome.returned EOF s3 c3 ∧
      s3.j_value = none ∧ dtor PushEnv.ok s3 = Destroyed.undefined :=
  ⟨by decide, by decide, by decide,
   { size := 2, put_back_ := 1, buff := ⟨Region.heap, [97, 0]⟩, next_w_element := 1,
     j_value := none, eback := 2, gptr := 2, egptr := 2 },
   { size := 1, put_back_ := 1, buff := ⟨Region.elements 1, [5]⟩, next_w_element := 1,
     j_value := some ⟨1, [5]⟩, eback := 0, gptr := 0, egptr := 1 },
   { size := 1, put_back_ := 1, buff := ⟨Region.elements 1, []⟩, next_w_element := 1,
     j_value := none, eback := 0, gptr := 1, egptr := 1 },
   [],
   [JniCall.GetObjectClass, JniCall.GetMethodID Method.pull, JniCall.CallObjectMethod,
    JniCall.ExceptionOccurred, JniCall.GetArrayLength ⟨1, [5]⟩,
    JniCall.GetByteArrayElements ⟨1, [5]⟩],
   [JniCall.ReleaseByteArrayElements ⟨1, [5]⟩ (Region.elements 1), JniCall.GetObjectClass,
    JniCall.GetMethodID Method.pull, JniCall.CallObjectMethod, JniCall.ExceptionOccurred],
   by decide, by decide, by decide, by decide, by decide⟩

/-! ## Write sessions -/

theorem pushed_append (xs ys : List JniCall) : pushed (xs ++ ys) = pushed xs ++ pushed ys := by
  induction xs with
  | nil => rfl
  | cons x xs ih => cases x <;> simp [pushed, ih]

theorem writeChars_cons {jvm : PushEnv} {s s' t : State} {c : Byte} {cs : List Byte}
    {v : Int} {calls more : List JniCall}
    (h : overflow jvm s (to_int_type c) = Outcome.returned v s' calls)
    (hw : writeChars jvm s' cs = some (t, more)) :
    writeChars jvm s (c :: cs) = some (t, calls ++ more) := by
  simp only [writeChars, h, hw]

theorem writeChars_pending (s : State) (cs : List Byte)
    (hcap : s.buff.data.length = s.size) (hk : s.next_w_element < s.size) :
    ∃ t calls, writeChars PushEnv.ok s cs = some (t, calls) ∧
      t.j_value = s.j_value ∧ t.buff.data.length = t.size ∧ t.next_w_element < t.size ∧
      (pushed calls).flatten ++ t.buff.data.take t.next_w_element
        = s.buff.data.take s.next_w_element ++ cs := by
  induction cs generalizing s with
  | nil => exact ⟨s, [], rfl, rfl, hcap, hk, by simp [pushed]⟩
  | cons c cs ih =>
    have hk2 : s.next_w_element < s.buff.data.length := by omega
    by_cases hfull : s.next_w_element + 1 = s.size
    · have hrun := overflow_flush s (to_int_type c) hk2 (Or.inr hfull)
      rw [to_char_to_int_type] at hrun
      obtain ⟨t, calls, hw, hj, hcap', hk', hcat⟩ :=
        ih { s with
             buff := { s.buff with data := (s.buff.data.set s.next_w_element c).set 0 c }
             next_w_element := 0 }
           (by simpa using hcap) (by simp only; omega)
      refine ⟨t, _, writeChars_cons hrun hw, hj, hcap', hk', ?_⟩
      simp only [pushed_append, List.flatten_append, List.append_assoc, hcat]
      simp [pushed, take_succ_set _ _ _ hk2]
    · have hrun := overflow_store PushEnv.ok s (to_int_type c) hk2 (to_int_type_ne_EOF c) hfull
      rw [to_char_to_int_type] at hrun
      obtain ⟨t, calls, hw, hj, hcap', hk', hcat⟩ :=
        ih { s with
             buff := { s.buff with data := s.buff.data.set s.next_w_element c }
             next_w_element := s.next_w_element + 1 }
           (by simpa using hcap) (by simp only; omega)
      refine ⟨t, _, writeChars_cons hrun hw, hj, hcap', hk', ?_⟩
      simp only [List.nil_append, hcat]
      simp [take_succ_set _ _ _ hk2]

/-- C1, what the code does: for every capacity `n ≥ 1` and all characters written one by
one through `overflow` on a fresh adapter, followed by destruction, every step completes
and the buffers handed to `push`, concatenated in call order, are the characters written
followed by one more byte, `0xFF` (the EOF passed by the destructor, stored and pushed
as data); so they are not the characters written. -/
theorem write_session_appends_eof_byte (n : Nat) (mem : Nat → Byte) (cs : List Byte)
    (hn : 1 ≤ n) :
    ∃ calls, writeSession PushEnv.ok n mem cs = some calls ∧
      (pushed calls).flatten = cs ++ [255] ∧ (pushed calls).flatten ≠ cs := by
  obtain ⟨t, calls, hw, hj, hcap, hk, hcat⟩ :=
    writeChars_pending (ctor n mem) cs (by simp [ctor]) (by simpa [ctor] using hn)
  have hk2 : t.next_w_element < t.buff.data.length := by omega
  have hrun := overflow_flush t EOF hk2 (Or.inl rfl)
  have hj' : t.j_value = none := by simpa [ctor] using hj
  have hcat' : (pushed calls).flatten ++ t.buff.data.take t.next_w_element = cs := by
    simpa [ctor] using hcat
  have hall : (pushed (calls ++
      ([JniCall.NewDirectByteBuffer t.buff.region (t.next_w_element + 1),
        JniCall.GetObjectClass, JniCall.GetMethodID Method.push,
        JniCall.CallVoidMethod
          ((t.buff.data.set t.next_w_element (to_char EOF)).take (t.next_w_element + 1)),
        JniCall.ExceptionOccurred] ++ [JniCall.DeleteGlobalRef]))).flatten = cs ++ [255] := by
    simp only [pushed_append, List.flatten_append]
    simp only [pushed, take_succ_set _ _ _ hk2, to_char_EOF, List.flatten_cons,
      List.flatten_nil, List.append_nil, ← List.append_assoc, hcat']
  refine ⟨_, ?_, hall, ?_⟩
  · simp only [writeSession, hw, dtor, hj']
    rw [hrun]
  · rw [hall]
    intro h
    have := congrArg List.length h
    simp at this

theorem write_session_appends_eof_byte_witness :
    ∃ calls, writeSession PushEnv.ok 2 (fun _ => 0) [104, 105, 33] = some calls ∧
      (pushed calls).flatten = [104, 105, 33] ++ [255] ∧
      (pushed calls).flatten ≠ [104, 105, 33] :=
  write_session_appends_eof_byte 2 (fun _ => 0) [104, 105, 33] (by decide)

/-! ## Read sessions -/

theorem gbump_zero (s : State) : gbump 0 s = s := rfl

theorem gbump_gbump (m : Nat) (s : State) : gbump m (gbump 1 s) = gbump (m + 1) s := by
  simp only [gbump, Nat.add_assoc, Nat.add_comm 1 m]

theorem pulls_append (xs ys : List JniCall) : pulls (xs ++ ys) = pulls xs + pulls ys := by
  simp [pulls, List.count_append]

theorem readAll_pending (jvm : Nat → PullEnv) (i : Nat) (m : Nat) :
    ∀ (s : State) (fuel : Nat) (vs : List Int) (t : State) (more : List JniCall),
      s.gptr + m ≤ s.egptr → s.egptr ≤ s.buff.data.length →
      readAll jvm fuel i (gbump m s) = some (vs, t, more) →
      readAll jvm (fuel + m) i s
        = some (((s.buff.data.drop s.gptr).take m).map to_int_type ++ vs, t, more) := by
  induction m with
  | zero =>
    intro s fuel vs t more _ _ h
    simpa [gbump_zero] using h
  | succ m ih =>
    intro s fuel vs t more hm hin h
    have hg : s.gptr < s.egptr := by omega
    have hlt : s.gptr < s.buff.data.length := by omega
    have hch : s.buff.data[s.gptr]? = some s.buff.data[s.gptr] := List.getElem?_eq_getElem hlt
    have hu := underflow_pending (jvm i) s _ hg hch
    have hrest := ih (gbump 1 s) fuel vs t more
      (by simp only [gbump]; omega) (by simpa [gbump] using hin)
      (by rw [gbump_gbump]; exact h)
    have hfuel : fuel + (m + 1) = (fuel + m) + 1 := by omega
    have hd : (s.buff.data.drop s.gptr).take (m + 1)
        = s.buff.data[s.gptr] :: (s.buff.data.drop (s.gptr + 1)).take m := by
      rw [List.drop_eq_getElem_cons hlt]
      rfl
    rw [hfuel, hd]
    simp only [readAll, hu, to_int_type_ne_EOF, if_false, pulls, List.count_nil, Nat.add_zero,
      hrest, List.nil_append]
    simp [gbump]

theorem underflow_eof (jvm : PullEnv) (s : State) (hg : s.egptr ≤ s.gptr)
    (hid : jvm.methodId = true) (hexc : jvm.raises = false)
    (hr : jvm.result = none ∨ ∃ a, jvm.result = some a ∧ a.bytes = []) :
    ∃ s' cs, underflow jvm s = Outcome.returned EOF s' cs ∧ pulls cs = 1 := by
  have hng : ¬ s.gptr < s.egptr := by omega
  obtain ⟨mid, rs, res, el⟩ := jvm
  simp only at hid hexc hr
  subst hid
  subst hexc
  rcases hr with h | ⟨a, h, ha⟩
  · subst h
    cases hj : s.j_value <;>
      simp only [underflow, hng, hj, if_false, if_true, Bool.false_eq_true] <;>
      exact ⟨_, _, rfl, by simp [pulls]⟩
  · subst h
    obtain ⟨ref, bytes⟩ := a
    simp only at ha
    subst ha
    cases hj : s.j_value <;>
      simp only [underflow, hng, hj, if_false, if_true, Bool.false_eq_true,
        List.length_nil] <;>
      exact ⟨_, _, rfl, by simp [pulls]⟩

theorem underflow_array (jvm : PullEnv) (a : JArray) (b : Byte) (bs : List Byte) (s : State)
    (hg : s.egptr ≤ s.gptr) (hid : jvm.methodId = true) (hexc : jvm.raises = false)
    (hres : jvm.result = some a) (hel : jvm.elements = true) (ha : a.bytes = b :: bs) :
    ∃ s' cs, underflow jvm s = Outcome.returned (to_int_type b) s' cs ∧
      pulls cs = 1 ∧ s'.buff.data = a.bytes ∧ s'.gptr = 0 ∧ s'.egptr = a.bytes.length := by
  have hng : ¬ s.gptr < s.egptr := by omega
  obtain ⟨mid, rs, res, el⟩ := jvm
  simp only at hid hexc hres hel
  subst hid
  subst hexc
  subst hres
  subst hel
  cases hj : s.j_value <;>
    simp only [underflow, hng, hj, if_false, if_true, Bool.false_eq_true, ha,
      List.length_cons, Nat.succ_ne_zero, Nat.add_one_ne_zero, List.getElem?_cons_zero] <;>
    exact ⟨_, _, rfl, by simp [pulls], rfl, rfl, rfl⟩

theorem readAll_arrays (jvm : Nat → PullEnv) (arrs : List JArray) :
    ∀ (i : Nat) (s : State) (fuel : Nat),
      s.egptr ≤ s.gptr →
      (∀ j, j ≤ arrs.length → (jvm (i + j)).methodId = true ∧ (jvm (i + j)).raises = false) →
      (∀ j, j < arrs.length → (jvm (i + j)).result = arrs[j]?) →
      (∀ j, j < arrs.length → (jvm (i + j)).elements = true) →
      (∀ a ∈ arrs, a.bytes ≠ []) →
      ((jvm (i + arrs.length)).result = none ∨
        ∃ a, (jvm (i + arrs.length)).result = some a ∧ a.bytes = []) →
      ((arrs.map JArray.bytes).flatten).length < fuel →
      ∃ t cs, readAll jvm fuel i s
          = some (((arrs.map JArray.bytes).flatten).map to_int_type, t, cs) ∧
        pulls cs = arrs.length + 1 := by
  induction arrs with
  | nil =>
    intro i s fuel hg hcall _ _ _ hend hfuel
    obtain ⟨f, rfl⟩ : ∃ f, fuel = f + 1 := ⟨fuel - 1, by omega⟩
    have hc := hcall 0 (Nat.le_refl _)
    obtain ⟨s', cs, hu, hp⟩ := underflow_eof (jvm i) s hg hc.1 hc.2 (by simpa using hend)
    exact ⟨s', cs, by simp [readAll, hu], by simpa using hp⟩
  | cons a rest ih =>
    intro i s fuel hg hcall hres hel hne hend hfuel
    have hab : a.bytes ≠ [] := hne a (by simp)
    obtain ⟨b, bs, ha⟩ := List.exists_cons_of_ne_nil hab
    have hc := hcall 0 (Nat.zero_le _)
    have hri : (jvm i).result = some a := by simpa using hres 0 (by simp)
    have hei : (jvm i).elements = true := by simpa using hel 0 (by simp)
    obtain ⟨s3, cs, hu, hp, hdata, hgp, hegp⟩ :=
      underflow_array (jvm i) a b bs s hg hc.1 hc.2 hri hei ha
    simp only [List.map_cons, List.flatten_cons, List.length_append, ha,
      List.length_cons] at hfuel
    obtain ⟨f, rfl⟩ : ∃ f, fuel = (f + bs.length) + 1 :=
      ⟨fuel - bs.length - 1, by omega⟩
    obtain ⟨t, more, hrd, hpm⟩ := ih (i + 1) (gbump bs.length (gbump 1 s3)) f
      (by simp only [gbump, hgp, hegp, ha, List.length_cons]; omega)
      (by
        intro j hj
        have := hcall (j + 1) (by simpa using hj)
        simpa [Nat.add_assoc, Nat.add_comm 1 j] using this)
      (by
        intro j hj
        have := hres (j + 1) (by simpa using hj)
        simpa [Nat.add_assoc, Nat.add_comm 1 j] using this)
      (by
        intro j hj
        have := hel (j + 1) (by simpa using hj)
        simpa [Nat.add_assoc, Nat.add_comm 1 j] using this)
      (fun x hx => hne x (by simp [hx]))
      (by simpa [Nat.add_assoc, Nat.add_comm 1] using hend)
      (by omega)
    have hpend := readAll_pending jvm (i + 1) bs.length
      (gbump 1 s3) f _ t more
      (by simp only [gbump, hgp, hegp, ha, List.length_cons]; omega)
      (by simp only [gbump, hegp, hdata]; exact le_refl _)
      hrd
    refine ⟨t, cs ++ more, ?_, ?_⟩
    · simp only [readAll, hu, to_int_type_ne_EOF, if_false, hp, hpend]
      simp [gbump, hgp, hdata, ha]
    · rw [pulls_append, hp, hpm]
      simp only [List.length_cons]
      omega

/-- C2, as amended: for every sequence of answers to successive `pull` calls, none
raising, whose first null or empty array comes after the arrays `arrs`, and provided
`GetByteArrayElements` returns non-null for each array of `arrs`, reading a freshly
constructed adapter character by character (`underflow`, then `gbump(1)`) reaches an
`underflow` that returns EOF, and what was read before it is exactly the concatenation,
in order, of the bytes of `arrs` (each as its unsigned value); `pull` was invoked once
for each of these arrays and once more for the null or empty result. -/
theorem read_session_fidelity (n : Nat) (mem : Nat → Byte) (jvm : Nat → PullEnv)
    (arrs : List JArray)
    (hcall : ∀ k, k ≤ arrs.length → (jvm k).methodId = true ∧ (jvm k).raises = false)
    (hres : ∀ k, k < arrs.length → (jvm k).result = arrs[k]?)
    (hne : ∀ a ∈ arrs, a.bytes ≠ [])
    (hend : (jvm arrs.length).result = none ∨
      ∃ a, (jvm arrs.length).result = some a ∧ a.bytes = [])
    (helems : ∀ k, k < arrs.length → (jvm k).elements = true)
    (fuel : Nat) (hfuel : ((arrs.map JArray.bytes).flatten).length < fuel) :
    ∃ t cs, readAll jvm fuel 0 (ctor n mem)
        = some (((arrs.map JArray.bytes).flatten).map to_int_type, t, cs) ∧
      pulls cs = arrs.length + 1 :=
  readAll_arrays jvm arrs 0 (ctor n mem) fuel (by simp [ctor])
    (by simpa using hcall) (by simpa using hres) (by simpa using helems) hne
    (by simpa using hend) hfuel

theorem read_session_fidelity_witness :
    ∃ t cs, readAll
        (fun k => PullEnv.ok
          (if k = 0 then some ⟨1, [72, 255]⟩ else if k = 1 then some ⟨2, [33]⟩ else none))
        4 0 (ctor 1 (fun _ => 0))
        = some ([72, 255, 33], t, cs) ∧
      pulls cs = 3 :=
  read_session_fidelity 1 (fun _ => 0)
    (fun k => PullEnv.ok
      (if k = 0 then some ⟨1, [72, 255]⟩ else if k = 1 then some ⟨2, [33]⟩ else none))
    [⟨1, [72, 255]⟩, ⟨2, [33]⟩]
    (fun _ _ => ⟨rfl, rfl⟩)
    (by
      intro j hj
      have h2 : j < 2 := hj
      interval_cases j <;> rfl)
    (by decide) (Or.inl rfl) (fun _ _ => rfl) 4 (by decide)

/-- C2 fails as stated: when the first `pull` returns the one-byte array `[72]` and the
second returns null, none raising, but `GetByteArrayElements` returns null, the first
`underflow` on a fresh adapter assigns null to `buff` and reads `buff[0]` through it;
the reading yields nothing and reaches no EOF, whatever the fuel. -/
theorem read_session_fidelity_counterexample :
    underflow { methodId := true, raises := false, result := some ⟨1, [72]⟩,
                elements := false } (ctor 1 (fun _ => 0)) =
      Outcome.undefined
        [JniCall.GetObjectClass, JniCall.GetMethodID Method.pull, JniCall.CallObjectMethod,
         JniCall.ExceptionOccurred, JniCall.GetArrayLength ⟨1, [72]⟩,
         JniCall.GetByteArrayElements ⟨1, [72]⟩] ∧
    ∀ fuel, readAll
        (fun k => { methodId := true, raises := false,
                    result := if k = 0 then some ⟨1, [72]⟩ else none, elements := false })
        fuel 0 (ctor 1 (fun _ => 0)) = none :=
  ⟨by decide, fun fuel => by cases fuel <;> rfl⟩

/-! ## Interleaved calls -/

theorem overflow_writeOnly (jvm : PushEnv) (s : State) (c : Int) (v : Int) (s' : State)
    (cs : List JniCall) (hs : WriteOnly s) (h : overflow jvm s c = Outcome.returned v s' cs) :
    WriteOnly s' := by
  obtain ⟨hj, hcap, hk⟩ := hs
  have hk2 : s.next_w_element < s.buff.data.length := by omega
  obtain ⟨db, mid, rs⟩ := jvm
  by_cases hf : c = EOF ∨ s.next_w_element + 1 = s.size
  · cases db <;> cases mid <;> cases rs <;>
      simp only [overflow, hk2, hf, if_true, Bool.false_eq_true, false_and, and_false,
        and_self, if_false, Outcome.returned.injEq, reduceCtorEq] at h
    obtain ⟨_, h2, _⟩ := h
    subst h2
    exact ⟨hj, by simpa using hcap, by simp only; omega⟩
  · simp only [overflow, hk2, hf, if_true, if_false, Outcome.returned.injEq] at h
    obtain ⟨_, h2, _⟩ := h
    subst h2
    have hne : s.next_w_element + 1 ≠ s.size := fun e => hf (Or.inr e)
    exact ⟨hj, by simpa using hcap, by simp only; omega⟩

theorem underflow_writeOnly (jvm : PullEnv) (s : State) (v : Int) (s' : State)
    (cs : List JniCall) (hs : WriteOnly s) (hnull : jvm.result = none)
    (h : underflow jvm s = Outcome.returned v s' cs) :
    WriteOnly s' := by
  obtain ⟨hj, hcap, hk⟩ := hs
  obtain ⟨mid, rs, res, el⟩ := jvm
  simp only at hnull
  subst hnull
  by_cases hg : s.gptr < s.egptr
  · cases hd : s.buff.data[s.gptr]? <;>
      simp only [underflow, hg, hd, if_true, Outcome.returned.injEq, reduceCtorEq] at h
    obtain ⟨_, h2, _⟩ := h
    subst h2
    exact ⟨hj, hcap, hk⟩
  · cases mid <;> cases rs <;>
      simp only [underflow, hg, hj, if_false, if_true, Bool.false_eq_true,
        Outcome.returned.injEq, reduceCtorEq] at h
    obtain ⟨_, h2, _⟩ := h
    subst h2
    exact ⟨rfl, hcap, hk⟩

theorem run_writeOnly (ops : List Op) :
    ∀ (s : State), WriteOnly s →
      (∀ jvm, Op.underflow jvm ∈ ops → jvm.result = none) →
      ∀ p ∈ run s ops, WriteOnly p.1 := by
  induction ops with
  | nil =>
    intro s _ _ p hp
    simp [run] at hp
  | cons op ops ih =>
    intro s hs hnull p hp
    simp only [run, List.mem_cons] at hp
    rcases hp with rfl | hp
    · exact hs
    · cases hstep : step s op with
      | returned v s' cs =>
        rw [hstep] at hp
        have hs' : WriteOnly s' := by
          cases op with
          | overflow jvm c => exact overflow_writeOnly jvm s c v s' cs hs hstep
          | underflow jvm =>
            exact underflow_writeOnly jvm s v s' cs hs (hnull jvm (by simp)) hstep
        exact ih s' hs' (fun jvm hm => hnull jvm (by simp [hm])) p hp
      | exited s' cs =>
        rw [hstep] at hp
        simp at hp
      | undefined cs =>
        rw [hstep] at hp
        simp at hp

theorem overflow_pushed_length (jvm : PushEnv) (s : State) (c : Int) (bs : List Byte)
    (hk : s.next_w_element < s.buff.data.length)
    (h : JniCall.CallVoidMethod bs ∈ (overflow jvm s c).calls) :
    bs.length = s.next_w_element + 1 := by
  obtain ⟨db, mid, rs⟩ := jvm
  by_cases hf : c = EOF ∨ s.next_w_element + 1 = s.size
  · cases db <;> cases mid <;> cases rs <;>
      simp [overflow, hk, hf, Outcome.calls] at h <;>
      subst h <;> simp [List.length_take] <;> omega
  · simp [overflow, hk, hf, Outcome.calls] at h

/-- The write path alone keeps the write index in step with the buffer: as long as
`pull` returns no array, every `overflow` call started from a fresh adapter of capacity
`buffsize ≥ 1` stores inside the buffer and hands `push` between 1 and `size` bytes. -/
theorem write_path_keeps_index_in_bounds (n : Nat) (mem : Nat → Byte) (ops : List Op)
    (hn : 1 ≤ n)
    (hnull : ∀ jvm, Op.underflow jvm ∈ ops → jvm.result = none) :
    ∀ s jvm c, (s, Op.overflow jvm c) ∈ run (ctor n mem) ops →
      s.next_w_element < s.buff.data.length ∧
      (∀ cs, overflow jvm s c ≠ Outcome.undefined cs) ∧
      ∀ bs, JniCall.CallVoidMethod bs ∈ (overflow jvm s c).calls →
        1 ≤ bs.length ∧ bs.length ≤ s.buff.data.length := by
  intro s jvm c hmem
  have hw : WriteOnly s :=
    run_writeOnly ops (ctor n mem) ⟨rfl, by simp [ctor], by simpa [ctor] using hn⟩ hnull _ hmem
  obtain ⟨_, hcap, hk⟩ := hw
  have hk2 : s.next_w_element < s.buff.data.length := by omega
  refine ⟨hk2, ?_, ?_⟩
  · intro cs
    simp only [overflow, hk2, if_true]
    split
    · split
      · split <;> simp
      · simp
    · simp
  · intro bs hbs
    have := overflow_pushed_length jvm s c bs hk2 hbs
    omega

/-- C8, what the code does: after `overflow('a')` on an adapter of capacity 2, an
`underflow` whose `pull` returns a one-byte array replaces `buff` by that array's
elements and `size` by 1 while the write index stays 1; the next `overflow` starts with
the write index equal to the length of the array `buff` points to, and its store
`buff[next_w_element] = in` is outside that array. -/
theorem write_index_out_of_bounds_after_refill :
    ∃ s, (s, Op.overflow PushEnv.ok 98) ∈
        run (ctor 2 (fun _ => 0))
          [Op.overflow PushEnv.ok 97, Op.underflow (PullEnv.ok (some ⟨1, [5]⟩)),
           Op.overflow PushEnv.ok 98] ∧
      s.next_w_element = 1 ∧ s.buff.data.length = 1 ∧
      ¬ s.next_w_element < s.buff.data.length ∧
      overflow PushEnv.ok s 98 = Outcome.undefined [] :=
  ⟨{ size := 1, put_back_ := 1, buff := ⟨Region.elements 1, [5]⟩, next_w_element := 1,
     j_value := some ⟨1, [5]⟩, eback := 0, gptr := 0, egptr := 1 },
   by decide, by decide, by decide, by decide, by decide⟩

/-- C9, what the code does: the first `underflow` on a fresh adapter whose `pull` returns
an empty array returns EOF with `j_value` holding that array while `buff` still points
to the array made by the constructor; the destructor, and likewise the next `underflow`,
then calls `ReleaseByteArrayElements` with that array and a buffer that was not obtained
from it. -/
theorem release_pairing_broken_by_empty_array :
    underflow (PullEnv.ok (some ⟨7, []⟩)) (ctor 1 (fun _ => 0)) =
      Outcome.returned EOF
        { size := 0, put_back_ := 1, buff := ⟨Region.heap, [0]⟩, next_w_element := 0,
          j_value := some ⟨7, []⟩, eback := 1, gptr := 1, egptr := 1 }
        [JniCall.GetObjectClass, JniCall.GetMethodID Method.pull, JniCall.CallObjectMethod,
         JniCall.ExceptionOccurred, JniCall.GetArrayLength ⟨7, []⟩] ∧
    dtor PushEnv.ok
        { size := 0, put_back_ := 1, buff := ⟨Region.heap, [0]⟩, next_w_element := 0,
          j_value := some ⟨7, []⟩, eback := 1, gptr := 1, egptr := 1 } =
      Destroyed.done
        [JniCall.ReleaseByteArrayElements ⟨7, []⟩ Region.heap, JniCall.DeleteGlobalRef] ∧
    (underflow (PullEnv.ok none)
        { size := 0, put_back_ := 1, buff := ⟨Region.heap, [0]⟩, next_w_element := 0,
          j_value := some ⟨7, []⟩, eback := 1, gptr := 1, egptr := 1 }).calls =
      [JniCall.ReleaseByteArrayElements ⟨7, []⟩ Region.heap, JniCall.GetObjectClass,
       JniCall.GetMethodID Method.pull, JniCall.CallObjectMethod,
       JniCall.ExceptionOccurred] := by
  decide

end JavaNioConnStreamBuffer
